import Mathlib

set_option maxRecDepth 40000

/-!
Verification development for the core runtime primitives of tscrapingbot-rs:
the markup sanitizer (`escape_telegram_code_entities`), the liveness signaler
(`ChatActionKeepAlive`), and the admission controller (`Executor`).

The sanitizer is embedded as executable scanners over `List Char` that model
the three regular expressions of the source exactly:
  code_re   = (?is)<code\b((?:[^"'<>]|"[^"]*"|'[^']*')*)>(.*?)</code>
  tag_re    = (?s)<[A-Za-z/](?:[^"'<>]|"[^"]*"|'[^']*')*>
  entity_re = &(?:#x[0-9A-Fa-f]+|#\d+|[A-Za-z][A-Za-z0-9]*);
Each scanner computes the length of the (unique) leftmost-first match starting
at the head of the list; the `replace_all` loops advance one character at a
time and skip over matches, exactly like the regex engine's scan.
-/

/-- The single-quote character (U+0027). -/
def sqChar : Char := Char.ofNat 39

/-- The double-quote character (U+0022). -/
def dqChar : Char := Char.ofNat 34

/-- The BEL character (U+0007) used by the source as a placeholder delimiter. -/
def belChar : Char := Char.ofNat 7

/-- Word characters for the regex word boundary `\b` (ASCII `\w`). -/
def isWordChar (c : Char) : Bool := c.isAlphanum || c = '_'

/-- Hex digits `[0-9A-Fa-f]` of `entity_re`. -/
def isHexDigitCh (c : Char) : Bool :=
  c.isDigit || (('a' ≤ c) && (c ≤ 'f')) || (('A' ≤ c) && (c ≤ 'F'))

/-- Does `pat` occur at the head of `l`? -/
def startsWithL : List Char → List Char → Bool
  | [], _ => true
  | _ :: _, [] => false
  | p :: ps, c :: cs => (p = c) && startsWithL ps cs

/-- Does `pat` occur anywhere in `l` (Rust `str::contains`)? -/
def containsSeq (pat : List Char) : List Char → Bool
  | [] => startsWithL pat []
  | c :: rest => startsWithL pat (c :: rest) || containsSeq pat rest

/-- ASCII lowercase of a character list (Rust `str::to_lowercase` on the
characters relevant here). -/
def toLowerL (l : List Char) : List Char := l.map Char.toLower

/-- Scanner for the attribute part `(?:[^"'<>]|"[^"]*"|'[^']*')*>` of
`tag_re`/`code_re`.  The state `none` means "outside quotes"; `some q` means
"inside a quote opened by `q`".  Returns the number of characters consumed,
including the terminating `>`.  Fails (like the regex) on a bare `<`, on an
unterminated quote, or at end of input. -/
def scanAttrsLen : Option Char → List Char → Option Nat
  | none, [] => none
  | none, c :: rest =>
    if c = '>' then some 1
    else if c = '<' then none
    else if c = dqChar || c = sqChar then (scanAttrsLen (some c) rest).map (· + 1)
    else (scanAttrsLen none rest).map (· + 1)
  | some _, [] => none
  | some q, c :: rest =>
    if c = q then (scanAttrsLen none rest).map (· + 1)
    else (scanAttrsLen (some q) rest).map (· + 1)

/-- Length of the `tag_re` match starting at the head of `l`, if any. -/
def tagLen : List Char → Option Nat
  | a :: c :: rest =>
    if a = '<' && (c.isAlpha || c = '/') then (scanAttrsLen none rest).map (· + 2)
    else none
  | _ => none

/-- The decimal branch `#\d+;` of `entity_re`, applied to the text after `&`;
returns the body length including `#` and `;`. -/
def decEntLen (rest2 : List Char) : Option Nat :=
  let ds := rest2.takeWhile Char.isDigit
  if 0 < ds.length ∧ (rest2.drop ds.length).head? = some ';' then
    some (ds.length + 2)
  else none

/-- Length of the `entity_re` body after `&`: hex (`#x…;`), decimal (`#…;`),
or named (`[A-Za-z][A-Za-z0-9]*;`), tried in the regex's alternation order. -/
def entityBodyLen : List Char → Option Nat
  | [] => none
  | c :: rest2 =>
    if c = '#' then
      match rest2 with
      | c2 :: rest3 =>
        if c2 = 'x' then
          (if 0 < (rest3.takeWhile isHexDigitCh).length ∧
              (rest3.drop (rest3.takeWhile isHexDigitCh).length).head? = some ';' then
            some ((rest3.takeWhile isHexDigitCh).length + 3)
          else decEntLen rest2)
        else decEntLen rest2
      | [] => decEntLen rest2
    else if c.isAlpha then
      (if (rest2.drop (rest2.takeWhile Char.isAlphanum).length).head? = some ';' then
        some ((rest2.takeWhile Char.isAlphanum).length + 2)
      else none)
    else none

/-- Length of the `entity_re` match starting at the head of `l`, if any. -/
def entityLen : List Char → Option Nat
  | a :: rest => if a = '&' then (entityBodyLen rest).map (· + 1) else none
  | [] => none

/-- Does `l` start with `</code>`, ASCII case-insensitively (the `(?i)` close
marker of `code_re`)? -/
def closeCodeAt : List Char → Bool
  | a :: b :: c1 :: c2 :: c3 :: c4 :: d :: _ =>
    a = '<' && b = '/' && c1.toLower = 'c' && c2.toLower = 'o' && c3.toLower = 'd' &&
      c4.toLower = 'e' && d = '>'
  | _ => false

/-- Number of characters before the first `</code>` (the lazy `(.*?)` of
`code_re`); fails when no close marker exists. -/
def findCloseLen : List Char → Option Nat
  | [] => none
  | c :: rest => if closeCodeAt (c :: rest) then some 0 else (findCloseLen rest).map (· + 1)

/-- The word boundary `\b` after `<code`: the next character is not a word
character (or the input ends). -/
def boundaryOk : List Char → Bool
  | [] => true
  | c :: _ => !(isWordChar c)

/-- Match of `code_re` at the head of `l`: returns
`(attrsLen, innerLen, totalLen)` such that `l` starts with
`<code` + attrs + `>` + inner + `</code>` of those lengths. -/
def codeLen (l : List Char) : Option (Nat × Nat × Nat) :=
  match l with
  | a :: c1 :: c2 :: c3 :: c4 :: rest =>
    if (a = '<' && c1.toLower = 'c' && c2.toLower = 'o' && c3.toLower = 'd' &&
        c4.toLower = 'e') && boundaryOk rest then
      match scanAttrsLen none rest with
      | some n =>
        match findCloseLen (rest.drop n) with
        | some m => some (n - 1, m, 5 + n + m + 7)
        | none => none
      | none => none
    else none
  | _ => none

/-- Placeholder string `"\x07{prefix}{idx}\x07"` (source helper `ph`). -/
def ph (pre : String) (i : Nat) : List Char :=
  belChar :: pre.toList ++ (Nat.repr i).toList ++ [belChar]

/-- Rust `str::replace` for a single-character pattern (used for the three
escape substitutions). -/
def replChar (c : Char) (s : List Char) : List Char → List Char
  | [] => []
  | x :: rest => (if x = c then s else [x]) ++ replChar c s rest

/-- The escape pass of the source: `&`→`&amp;`, then `<`→`&lt;`, then
`>`→`&gt;` (three sequential `str::replace` calls). -/
def escAll (l : List Char) : List Char :=
  replChar '>' ("&gt;".toList) (replChar '<' ("&lt;".toList) (replChar '&' ("&amp;".toList) l))

/-- Rust `str::replace` for a general pattern: replaces every non-overlapping
leftmost occurrence of `pat` by `rep`, never rescanning inserted text.  Fueled;
`none` is fuel exhaustion (never happens with fuel > length, see below). -/
def replaceStr : Nat → List Char → List Char → List Char → Option (List Char)
  | 0, _, _, _ => none
  | _ + 1, _, _, [] => some []
  | f + 1, pat, rep, c :: rest =>
    if startsWithL pat (c :: rest) then
      (replaceStr f pat rep ((c :: rest).drop pat.length)).map (fun t => rep ++ t)
    else
      (replaceStr f pat rep rest).map (fun t => c :: t)

/-- The restore loops of the source (steps 5–7 and the local entity restore):
for each stored string `e` at index `i`, replace `ph pre i` by `e`. -/
def restoreLoop (pre : String) : Nat → List (List Char) → List Char → Option (List Char)
  | _, [], l => some l
  | i, e :: es, l => do
    let l' ← replaceStr (l.length + 1) (ph pre i) e l
    restoreLoop pre (i + 1) es l'

/-- `entity_re.replace_all` with placeholders `ph pre i` (pass 3, and the
local pass inside code blocks), accumulating the protected entities. -/
def entityPass (pre : String) : Nat → List Char → List (List Char) →
    Option (List Char × List (List Char))
  | 0, _, _ => none
  | _ + 1, [], acc => some ([], acc)
  | f + 1, c :: rest, acc =>
    match entityLen (c :: rest) with
    | some n => do
      let (tail, acc') ← entityPass pre f ((c :: rest).drop n) (acc ++ [(c :: rest).take n])
      some (ph pre acc.length ++ tail, acc')
    | none => do
      let (tail, acc') ← entityPass pre f rest acc
      some (c :: tail, acc')

/-- The body of the `code_re.replace_all` closure: protect the inner entities
with `ENTC` placeholders, escape the rest, restore the entities, and rebuild
`<code{attrs}>{inner}</code>`. -/
def processCodeInner (attrs inner : List Char) : Option (List Char) := do
  let (ip, locals) ← entityPass ("ENTC") (inner.length + 1) inner []
  let r ← restoreLoop ("ENTC") 0 locals (escAll ip)
  some (("<code".toList) ++ attrs ++ ('>' :: r) ++ ("</code>".toList))

/-- Pass 1: `code_re.replace_all`, storing the rebuilt code HTML and leaving
`ph "CODE" i` placeholders. -/
def codePass : Nat → List Char → List (List Char) →
    Option (List Char × List (List Char))
  | 0, _, _ => none
  | _ + 1, [], acc => some ([], acc)
  | f + 1, c :: rest, acc =>
    match codeLen (c :: rest) with
    | some (an, iln, tot) => do
      let attrs := ((c :: rest).drop 5).take an
      let inner := ((c :: rest).drop (6 + an)).take iln
      let codeHtml ← processCodeInner attrs inner
      let (tail, acc') ← codePass f ((c :: rest).drop tot) (acc ++ [codeHtml])
      some (ph ("CODE") acc.length ++ tail, acc')
    | none => do
      let (tail, acc') ← codePass f rest acc
      some (c :: tail, acc')

/-- The decision of the pass-2 closure (source lines 61–69): a matched tag
whose lowercase starts with `<code` (and not `</`) or with `</code` is
returned as literal text when the document has no closing `</code>`. -/
def tagKeptAsText (hasClose : Bool) (tag : List Char) : Bool :=
  let tl := toLowerL tag
  let isCodeOpening := startsWithL ("<code".toList) tl && !(startsWithL ("</".toList) tl)
  let isCodeClosing := startsWithL ("</code".toList) tl
  (isCodeOpening || isCodeClosing) && !hasClose

/-- Pass 2: `tag_re.replace_all`, storing matched tags and leaving
`ph "TAG" i` placeholders (or the tag itself, per `tagKeptAsText`). -/
def tagPass (hasClose : Bool) : Nat → List Char → List (List Char) →
    Option (List Char × List (List Char))
  | 0, _, _ => none
  | _ + 1, [], acc => some ([], acc)
  | f + 1, c :: rest, acc =>
    match tagLen (c :: rest) with
    | some n =>
      if tagKeptAsText hasClose ((c :: rest).take n) then do
        let (tail, acc') ← tagPass hasClose f ((c :: rest).drop n) acc
        some ((c :: rest).take n ++ tail, acc')
      else do
        let (tail, acc') ← tagPass hasClose f ((c :: rest).drop n) (acc ++ [(c :: rest).take n])
        some (ph ("TAG") acc.length ++ tail, acc')
    | none => do
      let (tail, acc') ← tagPass hasClose f rest acc
      some (c :: tail, acc')

/-- The whole sanitizer on character lists: passes 1–7 of the source in
order.  `none` only on fuel exhaustion, which never happens. -/
def escapeCore (l : List Char) : Option (List Char) := do
  let (s1, codeBlocks) ← codePass (l.length + 1) l []
  let hasClose := containsSeq ("</code>".toList) (toLowerL s1)
  let (s2, tagMap) ← tagPass hasClose (s1.length + 1) s1 []
  let (s3, entsG) ← entityPass ("ENTG") (s2.length + 1) s2 []
  let r1 ← restoreLoop ("ENTG") 0 entsG (escAll s3)
  let r2 ← restoreLoop ("TAG") 0 tagMap r1
  let r3 ← restoreLoop ("CODE") 0 codeBlocks r2
  some r3

/-- `escape_telegram_code_entities` from
`src/handlers/utils/escape_telegram_code_entities.rs`. -/
def escape_telegram_code_entities (s : String) : String :=
  match escapeCore s.toList with
  | some l => String.mk l
  | none => String.mk []

/-- The sanitizer with its internal fuel bookkeeping exposed: `none` would
mean an internal loop failed to terminate with the allotted fuel. -/
def sanitizeOpt (s : String) : Option String :=
  (escapeCore s.toList).map String.mk

/-!
## LivenessSignaler (`ChatActionKeepAlive`,
`src/handlers/utils/chat_action_keep_alive.rs`)

The handle owns `stop_tx : Option<oneshot::Sender<()>>` and
`handle : Option<JoinHandle<()>>`.  `shutdown` takes both options out,
sending the stop signal and joining when they were present; the externally
visible effects of one call are recorded as a list.
-/

/-- The two optional fields of the `ChatActionKeepAlive` struct. -/
structure ChatActionKeepAlive where
  stop_tx : Option Unit
  handle : Option Unit
deriving DecidableEq

/-- Externally visible effects of a `shutdown` call. -/
inductive KeepAliveEffect
  | sendStop
  | joinTask
deriving DecidableEq

/-- `ChatActionKeepAlive::spawn`: returns a handle with both fields set. -/
def ChatActionKeepAlive.spawn : ChatActionKeepAlive :=
  { stop_tx := some (), handle := some () }

/-- `ChatActionKeepAlive::shutdown`: `take` the sender and send on it if
present, then `take` the join handle and await it if present. -/
def ChatActionKeepAlive.shutdown (s : ChatActionKeepAlive) :
    ChatActionKeepAlive × List KeepAliveEffect :=
  ({ stop_tx := none, handle := none },
   (match s.stop_tx with
    | some _ => [KeepAliveEffect.sendStop]
    | none => []) ++
   (match s.handle with
    | some _ => [KeepAliveEffect.joinTask]
    | none => []))

/-!
## Admission controller (`Executor`, `src/handlers/mod.rs`)

`Executor::run` is modelled as a small-step machine over the stages a task
passes through.  A task holds a clone of the per-key `Arc` from the
registry step until the end of `run`, and holds the key mutex guard from the
lock step until the end of `run`; the semaphore permit is held from the
acquire step until just after the wrapped future completes.  The cleanup step
performs the source's `Arc::strong_count(&lock_arc) == 1` check (the count is
the registry's own reference plus one per task currently holding a clone)
followed by the `map.get` / `Arc::ptr_eq` guarded removal (`ptr_eq` always
holds because an entry, once inserted, is never replaced).
-/

/-- The successive stages of one call to `Executor::run`. -/
inductive Stage
  | ready
  | havePermit
  | haveArc
  | running
  | released
  | done
deriving DecidableEq

/-- One task submitted to the executor: its user key and current stage. -/
structure ExecTask where
  key : String
  stage : Stage
deriving DecidableEq

/-- State of the executor: capacity, free permits, the `user_locks` key set,
and the tasks. -/
structure ExecSt where
  cap : Nat
  avail : Nat
  registry : List String
  tasks : List ExecTask
deriving DecidableEq

/-- Does a task at this stage hold a clone of the per-key `Arc`? -/
def holdsArcB : Stage → Bool
  | Stage.haveArc => true
  | Stage.running => true
  | Stage.released => true
  | _ => false

/-- Does a task at this stage hold the key mutex guard (`_user_guard`)?  The
guard is dropped only when `run` returns, after the cleanup block. -/
def holdsGuardB : Stage → Bool
  | Stage.running => true
  | Stage.released => true
  | _ => false

/-- Does a task at this stage hold a semaphore permit? -/
def holdsPermitB : Stage → Bool
  | Stage.havePermit => true
  | Stage.haveArc => true
  | Stage.running => true
  | _ => false

/-- Is the task executing inside the wrapped future `f()`? -/
def isRunningB : Stage → Bool
  | Stage.running => true
  | _ => false

/-- Is the task finished with `run` entirely? -/
def isDoneB : Stage → Bool
  | Stage.done => true
  | _ => false

/-- `Arc::strong_count` of the lock `Arc` for key `k`: one reference owned by
the `user_locks` map entry plus one per task currently holding a clone. -/
def strongCount (s : ExecSt) (k : String) : Nat :=
  (if s.registry.contains k then 1 else 0) +
    s.tasks.countP (fun t => t.key = k && holdsArcB t.stage)

/-- The registry update of `map.entry(key).or_insert_with(…)`: insert the key
only when absent. -/
def registryAfterInsert (reg : List String) (k : String) : List String :=
  if reg.contains k then reg else reg ++ [k]

/-- The registry update of the cleanup block: remove the entry only when the
observed `Arc::strong_count` is one and the entry is still the same `Arc`. -/
def registryAfterCleanup (s : ExecSt) (k : String) : List String :=
  if strongCount s k = 1 ∧ s.registry.contains k then s.registry.erase k
  else s.registry

/-- Scheduler actions: each advances task `i` over one suspension point of
`Executor::run`. -/
inductive ExecAction
  | acquire (i : Nat)
  | register (i : Nat)
  | lockKey (i : Nat)
  | finish (i : Nat)
  | cleanup (i : Nat)

/-- One step of the machine; `none` when the action is not enabled. -/
def applyAction (s : ExecSt) : ExecAction → Option ExecSt
  | ExecAction.acquire i =>
    match s.tasks.get? i with
    | some t =>
      if t.stage = Stage.ready ∧ 0 < s.avail then
        some { s with avail := s.avail - 1,
                      tasks := s.tasks.set i { t with stage := Stage.havePermit } }
      else none
    | none => none
  | ExecAction.register i =>
    match s.tasks.get? i with
    | some t =>
      if t.stage = Stage.havePermit then
        some { s with registry := registryAfterInsert s.registry t.key,
                      tasks := s.tasks.set i { t with stage := Stage.haveArc } }
      else none
    | none => none
  | ExecAction.lockKey i =>
    match s.tasks.get? i with
    | some t =>
      if t.stage = Stage.haveArc ∧
          s.tasks.countP (fun u => u.key = t.key && holdsGuardB u.stage) = 0 then
        some { s with tasks := s.tasks.set i { t with stage := Stage.running } }
      else none
    | none => none
  | ExecAction.finish i =>
    match s.tasks.get? i with
    | some t =>
      if t.stage = Stage.running then
        some { s with avail := s.avail + 1,
                      tasks := s.tasks.set i { t with stage := Stage.released } }
      else none
    | none => none
  | ExecAction.cleanup i =>
    match s.tasks.get? i with
    | some t =>
      if t.stage = Stage.released then
        some { s with registry := registryAfterCleanup s t.key,
                      tasks := s.tasks.set i { t with stage := Stage.done } }
      else none
    | none => none

/-- Run a sequence of scheduler actions. -/
def runActs (s : ExecSt) : List ExecAction → Option ExecSt
  | [] => some s
  | a :: rest =>
    match applyAction s a with
    | some s' => runActs s' rest
    | none => none

/-- Initial state: `Executor::new(cap)` with one `ready` task per key. -/
def initSt (cap : Nat) (keys : List String) : ExecSt :=
  { cap := cap, avail := cap, registry := [],
    tasks := keys.map (fun k => { key := k, stage := Stage.ready }) }

/-- Capacity of the module-level `EXECUTOR` instance (`Executor::new(5)`). -/
def executorCapacity : Nat := 5

/-- The schedule of a single task, submitted alone, running to completion. -/
def c1Trace : List ExecAction :=
  [ExecAction.acquire 0, ExecAction.register 0, ExecAction.lockKey 0,
   ExecAction.finish 0, ExecAction.cleanup 0]

/-- Final state of the single-task run under the module capacity. -/
def c1Final : ExecSt :=
  { cap := 5, avail := 5, registry := ["u"],
    tasks := [{ key := "u", stage := Stage.done }] }

/-- The C2 failing input: a well-formed tag whose quoted attribute contains
the literal bytes of the `TAG1` placeholder, followed by a second tag whose
single-quoted attribute holds a lone double quote. -/
def c2BadInput : List Char :=
  ("<x c=".toList) ++ [dqChar, belChar] ++ ("TAG1".toList) ++ [belChar, dqChar, '>'] ++
  ("<b a=".toList) ++ [sqChar, dqChar, sqChar, '>']

/-- The sanitizer's output on `c2BadInput`: the first tag's placeholder-shaped
attribute was replaced by the second tag, leaving a leading `<` that is no
longer part of any well-formed tag. -/
def c2BadOutput : List Char :=
  ("<x c=".toList) ++ [dqChar] ++ ("<b a=".toList) ++ [sqChar, dqChar, sqChar, '>'] ++
  [dqChar, '>'] ++ ("<b a=".toList) ++ [sqChar, dqChar, sqChar, '>']

/-- Intermediate state of the single-task run, just before cleanup. -/
def c1Mid : ExecSt :=
  { cap := 5, avail := 5, registry := ["u"],
    tasks := [{ key := "u", stage := Stage.released }] }

/-- A two-key schedule whose first task is inside `f()`. -/
def c9Trace : List ExecAction :=
  [ExecAction.acquire 0, ExecAction.register 0, ExecAction.lockKey 0]

/-- The state reached by `c9Trace` from `initSt 5 ["a", "b"]`. -/
def c9Final : ExecSt :=
  { cap := 5, avail := 4, registry := ["a"],
    tasks := [{ key := "a", stage := Stage.running }, { key := "b", stage := Stage.ready }] }

/-- Characters that are neither `<` nor `>`. -/
def notAngle (c : Char) : Bool := !(c = '<' || c = '>')

/-- Permit accounting: free permits plus permits held by tasks equal the
capacity. -/
def InvPermit (s : ExecSt) : Prop :=
  s.avail + s.tasks.countP (fun t => holdsPermitB t.stage) = s.cap

/-- Registry coverage: every task holding an `Arc` clone has its key in the
registry. -/
def InvArc (s : ExecSt) : Prop :=
  ∀ t ∈ s.tasks, holdsArcB t.stage = true → s.registry.contains t.key = true

/-! ## Auxiliary lemmas -/

/-- Updating one list element shifts `countP` by the difference of the
predicate on the old and the new element. -/
theorem countP_set_eq {α : Type} (p : α → Bool) :
    ∀ (l : List α) (i : Nat) (a b : α), l.get? i = some a →
      (l.set i b).countP p + (if p a then 1 else 0) =
        l.countP p + (if p b then 1 else 0) := by
  intro l
  induction l with
  | nil => intro i a b h; simp at h
  | cons x xs ih =>
    intro i a b h
    cases i with
    | zero =>
      simp only [List.get?_cons_zero, Option.some.injEq] at h
      subst h
      cases hpx : p x <;> cases hpb : p b <;>
        simp [List.countP_cons, List.set_cons_zero, hpx, hpb] <;> omega
    | succ j =>
      simp only [List.get?_cons_succ] at h
      have ihj := ih j a b h
      cases hpa : p a <;> cases hpb : p b <;> cases hpx : p x <;>
        simp [List.countP_cons, List.set_cons_succ, hpa, hpb, hpx] at ihj ⊢ <;> omega

/-- A list whose `k`-drop has a head is longer than `k`. -/
theorem head_drop_lt {α : Type} (l : List α) (k : Nat) (c : α)
    (h : (l.drop k).head? = some c) : k < l.length := by
  cases hd : l.drop k with
  | nil => rw [hd] at h; simp at h
  | cons x xs =>
    have hld := List.length_drop k l
    rw [hd] at hld
    simp [List.length_cons] at hld
    omega

/-- A successful attribute scan consumes at least the closing `>` and at most
the whole input. -/
theorem scanAttrsLen_bound :
    ∀ (l : List Char) (st : Option Char) (n : Nat),
      scanAttrsLen st l = some n → 1 ≤ n ∧ n ≤ l.length := by
  intro l
  induction l with
  | nil => intro st n h; cases st <;> simp [scanAttrsLen] at h
  | cons c rest ih =>
    intro st n h
    cases st with
    | none =>
      simp only [scanAttrsLen] at h
      split at h
      · injection h with h1
        subst h1
        simp [List.length_cons] <;> omega
      · split at h
        · simp at h
        · split at h
          · rcases Option.map_eq_some'.mp h with ⟨m, hm, hmn⟩
            have hb := ih (some c) m hm
            simp [List.length_cons] <;> omega
          · rcases Option.map_eq_some'.mp h with ⟨m, hm, hmn⟩
            have hb := ih none m hm
            simp [List.length_cons] <;> omega
    | some q =>
      simp only [scanAttrsLen] at h
      split at h
      · rcases Option.map_eq_some'.mp h with ⟨m, hm, hmn⟩
        have hb := ih none m hm
        simp [List.length_cons] <;> omega
      · rcases Option.map_eq_some'.mp h with ⟨m, hm, hmn⟩
        have hb := ih (some q) m hm
        simp [List.length_cons] <;> omega

/-- A matched tag has positive length bounded by the input length. -/
theorem tagLen_bound (l : List Char) (n : Nat) (h : tagLen l = some n) :
    1 ≤ n ∧ n ≤ l.length := by
  match l, h with
  | [], h => simp [tagLen] at h
  | [_], h => simp [tagLen] at h
  | a :: c :: rest, h =>
    simp only [tagLen] at h
    split at h
    · rcases Option.map_eq_some'.mp h with ⟨m, hm, hmn⟩
      have hb := scanAttrsLen_bound rest none m hm
      simp [List.length_cons] <;> omega
    · simp at h

/-- A close-code marker needs at least seven characters. -/
theorem closeCodeAt_length (l : List Char) (h : closeCodeAt l = true) :
    7 ≤ l.length := by
  match l, h with
  | _ :: _ :: _ :: _ :: _ :: _ :: _ :: _, _ => simp [List.length_cons] <;> omega
  | [], h => simp [closeCodeAt] at h
  | [_], h => simp [closeCodeAt] at h
  | [_, _], h => simp [closeCodeAt] at h
  | [_, _, _], h => simp [closeCodeAt] at h
  | [_, _, _, _], h => simp [closeCodeAt] at h
  | [_, _, _, _, _], h => simp [closeCodeAt] at h
  | [_, _, _, _, _, _], h => simp [closeCodeAt] at h

/-- The lazy inner scan leaves room for the seven-character close marker. -/
theorem findCloseLen_bound :
    ∀ (l : List Char) (m : Nat), findCloseLen l = some m → m + 7 ≤ l.length := by
  intro l
  induction l with
  | nil => intro m h; simp [findCloseLen] at h
  | cons c rest ih =>
    intro m h
    simp only [findCloseLen] at h
    split at h
    · next hcl =>
      injection h with h1
      subst h1
      have h7 := closeCodeAt_length (c :: rest) hcl
      omega
    · rcases Option.map_eq_some'.mp h with ⟨k, hk, hkm⟩
      have hb := ih k hk
      simp [List.length_cons] <;> omega

/-- A matched decimal entity body (digits and `;`, after the `#`) is nonempty
and fits in the input together with the preceding `#`. -/
theorem decEntLen_bound (l : List Char) (n : Nat) (h : decEntLen l = some n) :
    1 ≤ n ∧ n ≤ l.length + 1 := by
  simp only [decEntLen] at h
  split at h
  · next hc =>
    injection h with h1
    subst h1
    have hlt := head_drop_lt l (l.takeWhile Char.isDigit).length ';' hc.2
    omega
  · simp at h

/-- A matched entity body is nonempty and fits in the input. -/
theorem entityBodyLen_bound (l : List Char) (n : Nat) (h : entityBodyLen l = some n) :
    1 ≤ n ∧ n ≤ l.length := by
  match l, h with
  | c :: rest2, h =>
    cases rest2 with
    | nil =>
      simp only [entityBodyLen] at h
      split at h
      · have hb := decEntLen_bound [] n h
        simp at hb ⊢ <;> omega
      · split at h
        · split at h
          · next hc => simp at hc
          · simp at h
        · simp at h
    | cons c2 rest3 =>
      simp only [entityBodyLen] at h
      split at h
      · split at h
        · split at h
          · next hc =>
            injection h with h1
            subst h1
            have hlt := head_drop_lt rest3 (rest3.takeWhile isHexDigitCh).length ';' hc.2
            simp [List.length_cons] <;> omega
          · have hb := decEntLen_bound (c2 :: rest3) n h
            simp [List.length_cons] at hb ⊢ <;> omega
        · have hb := decEntLen_bound (c2 :: rest3) n h
          simp [List.length_cons] at hb ⊢ <;> omega
      · split at h
        · split at h
          · next hc =>
            injection h with h1
            subst h1
            have hlt := head_drop_lt (c2 :: rest3) ((c2 :: rest3).takeWhile Char.isAlphanum).length ';' hc
            simp [List.length_cons] at hlt ⊢ <;> omega
          · simp at h
        · simp at h

/-- A matched entity is nonempty and fits in the input. -/
theorem entityLen_bound (l : List Char) (n : Nat) (h : entityLen l = some n) :
    1 ≤ n ∧ n ≤ l.length := by
  match l, h with
  | [], h => simp [entityLen] at h
  | c :: rest, h =>
    simp only [entityLen] at h
    split at h
    · rcases Option.map_eq_some'.mp h with ⟨m, hm, hmn⟩
      have hb := entityBodyLen_bound rest m hm
      simp [List.length_cons] <;> omega
    · simp at h

/-- A matched code block is nonempty and fits in the input. -/
theorem codeLen_bound (l : List Char) (an iln tot : Nat)
    (h : codeLen l = some (an, iln, tot)) : 1 ≤ tot ∧ tot ≤ l.length := by
  match l, h with
  | [], h => simp [codeLen] at h
  | [_], h => simp [codeLen] at h
  | [_, _], h => simp [codeLen] at h
  | [_, _, _], h => simp [codeLen] at h
  | [_, _, _, _], h => simp [codeLen] at h
  | a :: c1 :: c2 :: c3 :: c4 :: rest, h =>
    simp only [codeLen] at h
    split at h
    · cases hs : scanAttrsLen none rest with
      | none => rw [hs] at h; exact absurd h (by simp)
      | some nn =>
        simp only [hs] at h
        cases hf : findCloseLen (rest.drop nn) with
        | none => rw [hf] at h; exact absurd h (by simp)
        | some m =>
          simp only [hf, Option.some.injEq, Prod.mk.injEq] at h
          obtain ⟨h1, h2, h3⟩ := h
          have hb := scanAttrsLen_bound rest none nn hs
          have hc := findCloseLen_bound (rest.drop nn) m hf
          have hd := List.length_drop nn rest
          simp [List.length_cons] <;> omega
    · simp at h

/-! ## Totality of the sanitizer (fuel sufficiency) -/

/-- Placeholders are never empty. -/
theorem ph_ne_nil (pre : String) (i : Nat) : ph pre i ≠ [] := by
  simp [ph]

/-- `replaceStr` succeeds whenever the fuel exceeds the input length and the
pattern is nonempty. -/
theorem replaceStr_isSome :
    ∀ (f : Nat) (pat rep l : List Char), pat ≠ [] → l.length < f →
      (replaceStr f pat rep l).isSome = true := by
  intro f
  induction f with
  | zero => intro pat rep l hp hl; omega
  | succ g ih =>
    intro pat rep l hp hl
    cases l with
    | nil => simp [replaceStr]
    | cons c rest =>
      have hpl : 1 ≤ pat.length := by
        cases pat with
        | nil => simp at hp
        | cons _ _ => simp [List.length_cons]
      simp only [replaceStr]
      split
      · have h1 : ((c :: rest).drop pat.length).length < g := by
          have hdl := List.length_drop pat.length (c :: rest)
          simp [List.length_cons] at hdl hl ⊢
          omega
        have h2 := ih pat rep ((c :: rest).drop pat.length) hp h1
        rcases Option.isSome_iff_exists.mp h2 with ⟨r, hr⟩
        rw [hr]
        simp
      · have h1 : rest.length < g := by
          simp [List.length_cons] at hl
          omega
        have h2 := ih pat rep rest hp h1
        rcases Option.isSome_iff_exists.mp h2 with ⟨r, hr⟩
        rw [hr]
        simp

/-- The restore loops always succeed. -/
theorem restoreLoop_isSome (pre : String) :
    ∀ (es : List (List Char)) (i : Nat) (l : List Char),
      (restoreLoop pre i es l).isSome = true := by
  intro es
  induction es with
  | nil => intro i l; simp [restoreLoop]
  | cons e es ih =>
    intro i l
    simp only [restoreLoop]
    have h1 := replaceStr_isSome (l.length + 1) (ph pre i) e l (ph_ne_nil pre i) (by omega)
    rcases Option.isSome_iff_exists.mp h1 with ⟨r, hr⟩
    rw [hr]
    simpa using ih (i + 1) r

/-- The entity pass succeeds whenever the fuel exceeds the input length. -/
theorem entityPass_isSome (pre : String) :
    ∀ (f : Nat) (l : List Char) (acc : List (List Char)), l.length < f →
      (entityPass pre f l acc).isSome = true := by
  intro f
  induction f with
  | zero => intro l acc h; omega
  | succ g ih =>
    intro l acc h
    cases l with
    | nil => simp [entityPass]
    | cons c rest =>
      simp only [entityPass]
      cases he : entityLen (c :: rest) with
      | some n =>
        have hb := entityLen_bound (c :: rest) n he
        have h1 : ((c :: rest).drop n).length < g := by
          have hdl := List.length_drop n (c :: rest)
          simp [List.length_cons] at hdl hb h ⊢
          omega
        have h2 := ih ((c :: rest).drop n) (acc ++ [(c :: rest).take n]) h1
        rcases Option.isSome_iff_exists.mp h2 with ⟨⟨tail, acc'⟩, hr⟩
        simp [hr]
      | none =>
        have h1 : rest.length < g := by
          simp [List.length_cons] at h
          omega
        have h2 := ih rest acc h1
        rcases Option.isSome_iff_exists.mp h2 with ⟨⟨tail, acc'⟩, hr⟩
        simp [hr]

/-- Processing a code block's inner content always succeeds. -/
theorem processCodeInner_isSome (attrs inner : List Char) :
    (processCodeInner attrs inner).isSome = true := by
  simp only [processCodeInner]
  have h1 := entityPass_isSome ("ENTC") (inner.length + 1) inner [] (by omega)
  rcases Option.isSome_iff_exists.mp h1 with ⟨⟨ip, locals⟩, hr⟩
  rw [hr]
  have h2 := restoreLoop_isSome ("ENTC") locals 0 (escAll ip)
  rcases Option.isSome_iff_exists.mp h2 with ⟨r, hr2⟩
  simp [hr2]

/-- The tag pass succeeds whenever the fuel exceeds the input length. -/
theorem tagPass_isSome (hasClose : Bool) :
    ∀ (f : Nat) (l : List Char) (acc : List (List Char)), l.length < f →
      (tagPass hasClose f l acc).isSome = true := by
  intro f
  induction f with
  | zero => intro l acc h; omega
  | succ g ih =>
    intro l acc h
    cases l with
    | nil => simp [tagPass]
    | cons c rest =>
      simp only [tagPass]
      cases ht : tagLen (c :: rest) with
      | some n =>
        have hb := tagLen_bound (c :: rest) n ht
        have h1 : ((c :: rest).drop n).length < g := by
          have hdl := List.length_drop n (c :: rest)
          simp [List.length_cons] at hdl hb h ⊢
          omega
        rcases Option.isSome_iff_exists.mp (ih ((c :: rest).drop n) acc h1) with ⟨⟨t1, a1⟩, hr1⟩
        rcases Option.isSome_iff_exists.mp
          (ih ((c :: rest).drop n) (acc ++ [(c :: rest).take n]) h1) with ⟨⟨t2, a2⟩, hr2⟩
        by_cases hk : tagKeptAsText hasClose ((c :: rest).take n) = true
        · simp [hk, hr1]
        · simp [hk, hr2]
      | none =>
        have h1 : rest.length < g := by
          simp [List.length_cons] at h
          omega
        have h2 := ih rest acc h1
        rcases Option.isSome_iff_exists.mp h2 with ⟨⟨tail, acc'⟩, hr⟩
        simp [hr]

/-- The code pass succeeds whenever the fuel exceeds the input length. -/
theorem codePass_isSome :
    ∀ (f : Nat) (l : List Char) (acc : List (List Char)), l.length < f →
      (codePass f l acc).isSome = true := by
  intro f
  induction f with
  | zero => intro l acc h; omega
  | succ g ih =>
    intro l acc h
    cases l with
    | nil => simp [codePass]
    | cons c rest =>
      simp only [codePass]
      cases hc : codeLen (c :: rest) with
      | some triple =>
        rcases triple with ⟨an, iln, tot⟩
        have hb := codeLen_bound (c :: rest) an iln tot hc
        have h1 : ((c :: rest).drop tot).length < g := by
          have hdl := List.length_drop tot (c :: rest)
          simp [List.length_cons] at hdl hb h ⊢
          omega
        have hpc := processCodeInner_isSome (((c :: rest).drop 5).take an)
          (((c :: rest).drop (6 + an)).take iln)
        rcases Option.isSome_iff_exists.mp hpc with ⟨ch, hch⟩
        have h2 := ih ((c :: rest).drop tot) (acc ++ [ch]) h1
        rcases Option.isSome_iff_exists.mp h2 with ⟨⟨tail, acc'⟩, hr⟩
        simp at hch
        simp [hch, hr]
      | none =>
        have h1 : rest.length < g := by
          simp [List.length_cons] at h
          omega
        have h2 := ih rest acc h1
        rcases Option.isSome_iff_exists.mp h2 with ⟨⟨tail, acc'⟩, hr⟩
        simp [hr]

/-- The whole sanitizer pipeline always succeeds. -/
theorem escapeCore_isSome (l : List Char) : (escapeCore l).isSome = true := by
  simp only [escapeCore]
  have h1 := codePass_isSome (l.length + 1) l [] (by omega)
  rcases Option.isSome_iff_exists.mp h1 with ⟨⟨s1, codeBlocks⟩, hr1⟩
  have h2 := tagPass_isSome (containsSeq (("</code>").toList) (toLowerL s1))
    (s1.length + 1) s1 [] (by omega)
  rcases Option.isSome_iff_exists.mp h2 with ⟨⟨s2, tagMap⟩, hr2⟩
  have h3 := entityPass_isSome ("ENTG") (s2.length + 1) s2 [] (by omega)
  rcases Option.isSome_iff_exists.mp h3 with ⟨⟨s3, entsG⟩, hr3⟩
  have h4 := restoreLoop_isSome ("ENTG") entsG 0 (escAll s3)
  rcases Option.isSome_iff_exists.mp h4 with ⟨r1, hr4⟩
  have h5 := restoreLoop_isSome ("TAG") tagMap 0 r1
  rcases Option.isSome_iff_exists.mp h5 with ⟨r2, hr5⟩
  have h6 := restoreLoop_isSome ("CODE") codeBlocks 0 r2
  rcases Option.isSome_iff_exists.mp h6 with ⟨r3, hr6⟩
  simp at hr2
  simp [hr1, hr2, hr3, hr4, hr5, hr6]

/-! ## Executor invariants -/

/-- Every step preserves the configured capacity. -/
theorem applyAction_cap (s s' : ExecSt) (a : ExecAction)
    (h : applyAction s a = some s') : s'.cap = s.cap := by
  cases a with
  | acquire i =>
    simp only [applyAction] at h
    cases hg : s.tasks.get? i with
    | none => simp only [hg] at h; exact absurd h (by simp)
    | some t =>
      simp only [hg] at h
      split at h
      · injection h with h1; subst h1; rfl
      · exact absurd h (by simp)
  | register i =>
    simp only [applyAction] at h
    cases hg : s.tasks.get? i with
    | none => simp only [hg] at h; exact absurd h (by simp)
    | some t =>
      simp only [hg] at h
      split at h
      · injection h with h1; subst h1; rfl
      · exact absurd h (by simp)
  | lockKey i =>
    simp only [applyAction] at h
    cases hg : s.tasks.get? i with
    | none => simp only [hg] at h; exact absurd h (by simp)
    | some t =>
      simp only [hg] at h
      split at h
      · injection h with h1; subst h1; rfl
      · exact absurd h (by simp)
  | finish i =>
    simp only [applyAction] at h
    cases hg : s.tasks.get? i with
    | none => simp only [hg] at h; exact absurd h (by simp)
    | some t =>
      simp only [hg] at h
      split at h
      · injection h with h1; subst h1; rfl
      · exact absurd h (by simp)
  | cleanup i =>
    simp only [applyAction] at h
    cases hg : s.tasks.get? i with
    | none => simp only [hg] at h; exact absurd h (by simp)
    | some t =>
      simp only [hg] at h
      split at h
      · injection h with h1; subst h1; rfl
      · exact absurd h (by simp)

/-- Every step preserves permit accounting. -/
theorem invPermit_step (s s' : ExecSt) (a : ExecAction)
    (h : applyAction s a = some s') (hinv : InvPermit s) : InvPermit s' := by
  cases a with
  | acquire i =>
    simp only [applyAction] at h
    cases hg : s.tasks.get? i with
    | none => simp only [hg] at h; exact absurd h (by simp)
    | some t =>
      simp only [hg] at h
      split at h
      · next hcond =>
        obtain ⟨hstage, hav⟩ := hcond
        injection h with h1
        subst h1
        have hset := countP_set_eq (fun u => holdsPermitB u.stage) s.tasks i t
          { t with stage := Stage.havePermit } hg
        simp [InvPermit, holdsPermitB, hstage] at hinv hset ⊢
        omega
      · exact absurd h (by simp)
  | register i =>
    simp only [applyAction] at h
    cases hg : s.tasks.get? i with
    | none => simp only [hg] at h; exact absurd h (by simp)
    | some t =>
      simp only [hg] at h
      split at h
      · next hstage =>
        injection h with h1
        subst h1
        have hset := countP_set_eq (fun u => holdsPermitB u.stage) s.tasks i t
          { t with stage := Stage.haveArc } hg
        simp [InvPermit, holdsPermitB, hstage] at hinv hset ⊢
        omega
      · exact absurd h (by simp)
  | lockKey i =>
    simp only [applyAction] at h
    cases hg : s.tasks.get? i with
    | none => simp only [hg] at h; exact absurd h (by simp)
    | some t =>
      simp only [hg] at h
      split at h
      · next hcond =>
        obtain ⟨hstage, hexcl⟩ := hcond
        injection h with h1
        subst h1
        have hset := countP_set_eq (fun u => holdsPermitB u.stage) s.tasks i t
          { t with stage := Stage.running } hg
        simp [InvPermit, holdsPermitB, hstage] at hinv hset ⊢
        omega
      · exact absurd h (by simp)
  | finish i =>
    simp only [applyAction] at h
    cases hg : s.tasks.get? i with
    | none => simp only [hg] at h; exact absurd h (by simp)
    | some t =>
      simp only [hg] at h
      split at h
      · next hstage =>
        injection h with h1
        subst h1
        have hset := countP_set_eq (fun u => holdsPermitB u.stage) s.tasks i t
          { t with stage := Stage.released } hg
        simp [InvPermit, holdsPermitB, hstage] at hinv hset ⊢
        omega
      · exact absurd h (by simp)
  | cleanup i =>
    simp only [applyAction] at h
    cases hg : s.tasks.get? i with
    | none => simp only [hg] at h; exact absurd h (by simp)
    | some t =>
      simp only [hg] at h
      split at h
      · next hstage =>
        injection h with h1
        subst h1
        have hset := countP_set_eq (fun u => holdsPermitB u.stage) s.tasks i t
          { t with stage := Stage.done } hg
        simp [InvPermit, holdsPermitB, hstage] at hinv hset ⊢
        omega
      · exact absurd h (by simp)

/-- Inserting preserves membership and adds the new key. -/
theorem contains_registryAfterInsert (reg : List String) (k k' : String)
    (h : reg.contains k' = true) : (registryAfterInsert reg k).contains k' = true := by
  simp only [registryAfterInsert]
  split
  · exact h
  · simp at h ⊢
    exact Or.inl h

/-- The inserted key is present afterwards. -/
theorem contains_registryAfterInsert_self (reg : List String) (k : String) :
    (registryAfterInsert reg k).contains k = true := by
  simp only [registryAfterInsert]
  split
  · next hc => exact hc
  · simp

/-- Every step preserves registry coverage. -/
theorem invArc_step (s s' : ExecSt) (a : ExecAction)
    (h : applyAction s a = some s') (hinv : InvArc s) : InvArc s' := by
  cases a with
  | acquire i =>
    simp only [applyAction] at h
    cases hg : s.tasks.get? i with
    | none => simp only [hg] at h; exact absurd h (by simp)
    | some t =>
      simp only [hg] at h
      split at h
      · next hcond =>
        injection h with h1
        subst h1
        intro t' ht' harc
        rcases List.mem_or_eq_of_mem_set ht' with hmem | heq
        · exact hinv t' hmem harc
        · subst heq; simp [holdsArcB] at harc
      · exact absurd h (by simp)
  | register i =>
    simp only [applyAction] at h
    cases hg : s.tasks.get? i with
    | none => simp only [hg] at h; exact absurd h (by simp)
    | some t =>
      simp only [hg] at h
      split at h
      · next hstage =>
        injection h with h1
        subst h1
        intro t' ht' harc
        rcases List.mem_or_eq_of_mem_set ht' with hmem | heq
        · exact contains_registryAfterInsert s.registry t.key t'.key (hinv t' hmem harc)
        · subst heq
          exact contains_registryAfterInsert_self s.registry t.key
      · exact absurd h (by simp)
  | lockKey i =>
    simp only [applyAction] at h
    cases hg : s.tasks.get? i with
    | none => simp only [hg] at h; exact absurd h (by simp)
    | some t =>
      simp only [hg] at h
      split at h
      · next hcond =>
        obtain ⟨hstage, hexcl⟩ := hcond
        injection h with h1
        subst h1
        intro t' ht' harc
        rcases List.mem_or_eq_of_mem_set ht' with hmem | heq
        · exact hinv t' hmem harc
        · subst heq
          exact hinv t (List.get?_mem hg) (by simp [holdsArcB, hstage])
      · exact absurd h (by simp)
  | finish i =>
    simp only [applyAction] at h
    cases hg : s.tasks.get? i with
    | none => simp only [hg] at h; exact absurd h (by simp)
    | some t =>
      simp only [hg] at h
      split at h
      · next hstage =>
        injection h with h1
        subst h1
        intro t' ht' harc
        rcases List.mem_or_eq_of_mem_set ht' with hmem | heq
        · exact hinv t' hmem harc
        · subst heq
          exact hinv t (List.get?_mem hg) (by simp [holdsArcB, hstage])
      · exact absurd h (by simp)
  | cleanup i =>
    simp only [applyAction] at h
    cases hg : s.tasks.get? i with
    | none => simp only [hg] at h; exact absurd h (by simp)
    | some t =>
      simp only [hg] at h
      split at h
      · next hstage =>
        injection h with h1
        subst h1
        have hmem := List.get?_mem hg
        have hcont := hinv t hmem (by simp [holdsArcB, hstage])
        have hpos : 0 < s.tasks.countP (fun u => u.key = t.key && holdsArcB u.stage) :=
          List.countP_pos.mpr ⟨t, hmem, by simp [hstage, holdsArcB]⟩
        have hreg : registryAfterCleanup s t.key = s.registry := by
          have hge : 2 ≤ strongCount s t.key := by
            simp only [strongCount]
            rw [if_pos hcont]
            omega
          have hne : ¬(strongCount s t.key = 1 ∧ s.registry.contains t.key = true) := by
            intro hcond
            exact absurd hcond.1 (by omega)
          simp only [registryAfterCleanup, if_neg hne]
        intro t' ht' harc
        simp only [hreg]
        rcases List.mem_or_eq_of_mem_set ht' with hmem' | heq
        · exact hinv t' hmem' harc
        · subst heq; simp [holdsArcB] at harc
      · exact absurd h (by simp)

/-- `runActs` preserves capacity, permit accounting and registry coverage. -/
theorem runActs_inv :
    ∀ (acts : List ExecAction) (s s' : ExecSt), runActs s acts = some s' →
      s'.cap = s.cap ∧ (InvPermit s → InvPermit s') ∧ (InvArc s → InvArc s') := by
  intro acts
  induction acts with
  | nil =>
    intro s s' h
    simp [runActs] at h
    subst h
    exact ⟨rfl, fun x => x, fun x => x⟩
  | cons a rest ih =>
    intro s s' h
    simp only [runActs] at h
    cases ha : applyAction s a with
    | none => simp only [ha] at h; exact absurd h (by simp)
    | some s₁ =>
      simp only [ha] at h
      obtain ⟨hcap, hperm, harc⟩ := ih s₁ s' h
      refine ⟨by rw [hcap, applyAction_cap s s₁ a ha], ?_, ?_⟩
      · intro hp; exact hperm (invPermit_step s s₁ a ha hp)
      · intro hp; exact harc (invArc_step s s₁ a ha hp)

/-- The initial state satisfies permit accounting. -/
theorem invPermit_init (cap : Nat) (keys : List String) : InvPermit (initSt cap keys) := by
  simp only [InvPermit, initSt]
  have : (keys.map (fun k => ({ key := k, stage := Stage.ready } : ExecTask))).countP
      (fun t => holdsPermitB t.stage) = 0 := by
    rw [List.countP_eq_zero]
    intro t ht
    rcases List.mem_map.mp ht with ⟨k, _, hk⟩
    subst hk
    simp [holdsPermitB]
  rw [this]
  omega

/-- The initial state satisfies registry coverage. -/
theorem invArc_init (cap : Nat) (keys : List String) : InvArc (initSt cap keys) := by
  intro t ht harc
  simp only [initSt] at ht
  rcases List.mem_map.mp ht with ⟨k, _, hk⟩
  subst hk
  simp [holdsArcB] at harc

/-- A running task holds a permit. -/
theorem isRunningB_holdsPermitB (st : Stage) (h : isRunningB st = true) :
    holdsPermitB st = true := by
  cases st <;> simp [isRunningB, holdsPermitB] at h ⊢

/-- A successful attribute scan always ends exactly at a `>`. -/
theorem scanAttrsLen_gt :
    ∀ (l : List Char) (st : Option Char) (n : Nat),
      scanAttrsLen st l = some n → l.get? (n - 1) = some '>' := by
  intro l
  induction l with
  | nil => intro st n h; cases st <;> simp [scanAttrsLen] at h
  | cons c rest ih =>
    intro st n h
    cases st with
    | none =>
      simp only [scanAttrsLen] at h
      split at h
      · next hc =>
        injection h with h1
        subst h1
        subst hc
        simp
      · split at h
        · simp at h
        · split at h
          · rcases Option.map_eq_some'.mp h with ⟨m, hm, hmn⟩
            have h1 := ih (some c) m hm
            have hb := scanAttrsLen_bound rest (some c) m hm
            subst hmn
            simp only [Nat.add_sub_cancel]
            cases m with
            | zero => omega
            | succ k =>
              rw [List.get?_cons_succ]
              simpa using h1
          · rcases Option.map_eq_some'.mp h with ⟨m, hm, hmn⟩
            have h1 := ih none m hm
            have hb := scanAttrsLen_bound rest none m hm
            subst hmn
            simp only [Nat.add_sub_cancel]
            cases m with
            | zero => omega
            | succ k =>
              rw [List.get?_cons_succ]
              simpa using h1
    | some q =>
      simp only [scanAttrsLen] at h
      split at h
      · rcases Option.map_eq_some'.mp h with ⟨m, hm, hmn⟩
        have h1 := ih none m hm
        have hb := scanAttrsLen_bound rest none m hm
        subst hmn
        simp only [Nat.add_sub_cancel]
        cases m with
        | zero => omega
        | succ k =>
          rw [List.get?_cons_succ]
          simpa using h1
      · rcases Option.map_eq_some'.mp h with ⟨m, hm, hmn⟩
        have h1 := ih (some q) m hm
        have hb := scanAttrsLen_bound rest (some q) m hm
        subst hmn
        simp only [Nat.add_sub_cancel]
        cases m with
        | zero => omega
        | succ k =>
          rw [List.get?_cons_succ]
          simpa using h1

/-- A matched tag ends with its terminating `>`: a tag-like span with no `>`
is never matched. -/
theorem tagLen_ends_gt (l : List Char) (n : Nat) (h : tagLen l = some n) :
    l.get? (n - 1) = some '>' := by
  match l, h with
  | [], h => simp [tagLen] at h
  | [_], h => simp [tagLen] at h
  | a :: c :: rest, h =>
    simp only [tagLen] at h
    split at h
    · rcases Option.map_eq_some'.mp h with ⟨m, hm, hmn⟩
      have h1 := scanAttrsLen_gt rest none m hm
      have hb := scanAttrsLen_bound rest none m hm
      subst hmn
      show (a :: c :: rest).get? (m + 1) = some '>'
      cases m with
      | zero => omega
      | succ k =>
        rw [List.get?_cons_succ, List.get?_cons_succ]
        simpa using h1
    · simp at h

/-- The cleanup block of `Executor::run` never removes a registry entry: the
`Arc::strong_count == 1` test cannot succeed while the finishing task itself
still holds a clone alongside the registry's own reference. -/
theorem cleanup_keeps_registry (s s' : ExecSt) (i : Nat)
    (h : applyAction s (ExecAction.cleanup i) = some s') (hinv : InvArc s) :
    s'.registry = s.registry := by
  simp only [applyAction] at h
  cases hg : s.tasks.get? i with
  | none => simp only [hg] at h; exact absurd h (by simp)
  | some t =>
    simp only [hg] at h
    split at h
    · next hstage =>
      injection h with h1
      subst h1
      have hmem := List.get?_mem hg
      have hcont := hinv t hmem (by simp [holdsArcB, hstage])
      have hpos : 0 < s.tasks.countP (fun u => u.key = t.key && holdsArcB u.stage) :=
        List.countP_pos.mpr ⟨t, hmem, by simp [hstage, holdsArcB]⟩
      have hge : 2 ≤ strongCount s t.key := by
        simp only [strongCount]
        rw [if_pos hcont]
        omega
      have hne : ¬(strongCount s t.key = 1 ∧ s.registry.contains t.key = true) := by
        intro hcond
        exact absurd hcond.1 (by omega)
      show registryAfterCleanup s t.key = s.registry
      simp only [registryAfterCleanup, if_neg hne]
    · exact absurd h (by simp)

/-! ## Character-level facts about the escape pass -/

/-- A character of `replChar c s l` comes from `s` or is a non-`c` character
of `l`. -/
theorem mem_replChar (c : Char) (s : List Char) :
    ∀ (l : List Char) (x : Char), x ∈ replChar c s l → x ∈ s ∨ (x ∈ l ∧ x ≠ c) := by
  intro l
  induction l with
  | nil => intro x h; simp [replChar] at h
  | cons y rest ih =>
    intro x h
    simp only [replChar] at h
    rcases List.mem_append.mp h with h1 | h2
    · by_cases hy : y = c
      · rw [if_pos hy] at h1
        exact Or.inl h1
      · rw [if_neg hy] at h1
        simp at h1
        subst h1
        exact Or.inr ⟨List.mem_cons_self x rest, hy⟩
    · rcases ih x h2 with ha | ⟨hb, hc⟩
      · exact Or.inl ha
      · exact Or.inr ⟨List.mem_cons_of_mem y hb, hc⟩

/-- After the escape pass no `<` or `>` remains. -/
theorem escAll_no_angle (l : List Char) (x : Char) (h : x ∈ escAll l) :
    notAngle x = true := by
  simp only [escAll] at h
  rcases mem_replChar '>' (("&gt;").toList) _ x h with h1 | ⟨h2, hgt⟩
  · simp at h1
    rcases h1 with rfl | rfl | rfl | rfl <;> decide
  · rcases mem_replChar '<' (("&lt;").toList) _ x h2 with h3 | ⟨_, hlt⟩
    · simp at h3
      rcases h3 with rfl | rfl | rfl | rfl <;> decide
    · simp [notAngle, hlt, hgt]

/-- A character of a `replaceStr` result comes from the replacement or from
the original text. -/
theorem mem_replaceStr :
    ∀ (f : Nat) (pat rep l res : List Char), replaceStr f pat rep l = some res →
      ∀ x, x ∈ res → x ∈ rep ∨ x ∈ l := by
  intro f
  induction f with
  | zero => intro pat rep l res h; simp [replaceStr] at h
  | succ g ih =>
    intro pat rep l res h x hx
    cases l with
    | nil =>
      simp [replaceStr] at h
      subst h
      simp at hx
    | cons c rest =>
      simp only [replaceStr] at h
      split at h
      · rcases Option.map_eq_some'.mp h with ⟨t, ht, hteq⟩
        subst hteq
        rcases List.mem_append.mp hx with h1 | h2
        · exact Or.inl h1
        · rcases ih pat rep _ t ht x h2 with ha | hb
          · exact Or.inl ha
          · exact Or.inr (List.mem_of_mem_drop hb)
      · rcases Option.map_eq_some'.mp h with ⟨t, ht, hteq⟩
        subst hteq
        rcases List.mem_cons.mp hx with h1 | h2
        · subst h1; exact Or.inr (List.mem_cons_self x rest)
        · rcases ih pat rep rest t ht x h2 with ha | hb
          · exact Or.inl ha
          · exact Or.inr (List.mem_cons_of_mem c hb)

/-- A character of a restore-loop result comes from the text or from one of
the stored strings. -/
theorem mem_restoreLoop (pre : String) :
    ∀ (es : List (List Char)) (i : Nat) (l res : List Char),
      restoreLoop pre i es l = some res →
      ∀ x, x ∈ res → x ∈ l ∨ ∃ e ∈ es, x ∈ e := by
  intro es
  induction es with
  | nil =>
    intro i l res h x hx
    simp [restoreLoop] at h
    subst h
    exact Or.inl hx
  | cons e es ih =>
    intro i l res h x hx
    simp only [restoreLoop] at h
    cases hrs : replaceStr (l.length + 1) (ph pre i) e l with
    | none => simp only [hrs] at h; exact absurd h (by simp)
    | some l' =>
      simp only [hrs] at h
      have hh : restoreLoop pre (i + 1) es l' = some res := by simpa using h
      rcases ih (i + 1) l' res hh x hx with h1 | ⟨e', he', hxe⟩
      · rcases mem_replaceStr (l.length + 1) (ph pre i) e l l' hrs x h1 with ha | hb
        · exact Or.inr ⟨e, List.mem_cons_self e es, ha⟩
        · exact Or.inl hb
      · exact Or.inr ⟨e', List.mem_cons_of_mem e he', hxe⟩

/-- Taking as many elements as the `takeWhile` prefix yields that prefix. -/
theorem take_length_takeWhile (p : Char → Bool) (l : List Char) :
    l.take (l.takeWhile p).length = l.takeWhile p := by
  induction l with
  | nil => simp
  | cons c rest ih =>
    by_cases hp : p c
    · simp [List.takeWhile_cons, hp, List.take_cons, ih]
    · simp [List.takeWhile_cons, hp]

/-- Taking one element of a list with a known head. -/
theorem take_one_head {α : Type} (l : List α) (a : α) (h : l.head? = some a) :
    l.take 1 = [a] := by
  cases l with
  | nil => simp at h
  | cons x xs => simp at h; subst h; simp

/-- ASCII letters are not angle brackets. -/
theorem notAngle_of_isAlpha (x : Char) (h : x.isAlpha = true) : notAngle x = true := by
  by_cases h1 : x = '<'
  · subst h1; exact absurd h (by decide)
  by_cases h2 : x = '>'
  · subst h2; exact absurd h (by decide)
  simp [notAngle, h1, h2]

/-- ASCII alphanumerics are not angle brackets. -/
theorem notAngle_of_isAlphanum (x : Char) (h : x.isAlphanum = true) : notAngle x = true := by
  by_cases h1 : x = '<'
  · subst h1; exact absurd h (by decide)
  by_cases h2 : x = '>'
  · subst h2; exact absurd h (by decide)
  simp [notAngle, h1, h2]

/-- ASCII digits are not angle brackets. -/
theorem notAngle_of_isDigit (x : Char) (h : x.isDigit = true) : notAngle x = true := by
  by_cases h1 : x = '<'
  · subst h1; exact absurd h (by decide)
  by_cases h2 : x = '>'
  · subst h2; exact absurd h (by decide)
  simp [notAngle, h1, h2]

/-- Hex digits are not angle brackets. -/
theorem notAngle_of_isHexDigitCh (x : Char) (h : isHexDigitCh x = true) :
    notAngle x = true := by
  by_cases h1 : x = '<'
  · subst h1; exact absurd h (by decide)
  by_cases h2 : x = '>'
  · subst h2; exact absurd h (by decide)
  simp [notAngle, h1, h2]

/-- The digits-and-semicolon part of a decimal entity has no angle brackets. -/
theorem decEntLen_chars (l : List Char) (bn : Nat) (h : decEntLen l = some bn) :
    ∀ x ∈ l.take (bn - 1), notAngle x = true := by
  simp only [decEntLen] at h
  split at h
  · next hc =>
    injection h with h1
    subst h1
    intro x hx
    rw [show (l.takeWhile Char.isDigit).length + 2 - 1 =
        (l.takeWhile Char.isDigit).length + 1 from rfl] at hx
    rw [List.take_add, take_length_takeWhile] at hx
    rcases List.mem_append.mp hx with h2 | h3
    · exact notAngle_of_isDigit x (List.mem_takeWhile_imp h2)
    · rw [take_one_head _ ';' hc.2] at h3
      simp at h3
      subst h3
      decide
  · simp at h

/-- A matched entity body has no angle brackets. -/
theorem entityBodyLen_chars (l : List Char) (bn : Nat) (h : entityBodyLen l = some bn) :
    ∀ x ∈ l.take bn, notAngle x = true := by
  match l, h with
  | c :: rest2, h =>
    have hdec : ∀ (hcs : c = '#'), decEntLen rest2 = some bn →
        ∀ x ∈ (c :: rest2).take bn, notAngle x = true := by
      intro hcs hd x hx
      have hb := decEntLen_bound rest2 bn hd
      have hch := decEntLen_chars rest2 bn hd
      cases bn with
      | zero => omega
      | succ k =>
        rw [List.take_succ_cons] at hx
        rcases List.mem_cons.mp hx with rfl | hmem
        · rw [hcs]; decide
        · exact hch x hmem
    cases rest2 with
    | nil =>
      simp only [entityBodyLen] at h
      split at h
      · simp [decEntLen] at h
      · split at h
        · split at h
          · next hc => simp at hc
          · simp at h
        · simp at h
    | cons c2 rest3 =>
      simp only [entityBodyLen] at h
      split at h
      · next hcs =>
        split at h
        · next hx2 =>
          split at h
          · next hc =>
            injection h with h1
            subst h1
            intro x hx
            rw [show (rest3.takeWhile isHexDigitCh).length + 3 =
                (((rest3.takeWhile isHexDigitCh).length + 1) + 1) + 1 from by omega] at hx
            rw [List.take_succ_cons, List.take_succ_cons] at hx
            rcases List.mem_cons.mp hx with rfl | hx'
            · rw [hcs]; decide
            · rcases List.mem_cons.mp hx' with rfl | hx''
              · rw [hx2]; decide
              · rw [List.take_add, take_length_takeWhile] at hx''
                rcases List.mem_append.mp hx'' with h2 | h3
                · exact notAngle_of_isHexDigitCh x (List.mem_takeWhile_imp h2)
                · rw [take_one_head _ ';' hc.2] at h3
                  simp at h3
                  subst h3
                  decide
          · exact hdec hcs h
        · exact hdec hcs h
      · split at h
        · next halpha =>
          split at h
          · next hc =>
            injection h with h1
            subst h1
            intro x hx
            rw [show ((c2 :: rest3).takeWhile Char.isAlphanum).length + 2 =
                (((c2 :: rest3).takeWhile Char.isAlphanum).length + 1) + 1 from by omega] at hx
            rw [List.take_succ_cons] at hx
            rcases List.mem_cons.mp hx with rfl | hx'
            · exact notAngle_of_isAlpha x halpha
            · rw [List.take_add, take_length_takeWhile] at hx'
              rcases List.mem_append.mp hx' with h2 | h3
              · exact notAngle_of_isAlphanum x (List.mem_takeWhile_imp h2)
              · rw [take_one_head _ ';' hc] at h3
                simp at h3
                subst h3
                decide
          · simp at h
        · simp at h

/-- A matched entity has no angle brackets. -/
theorem entityLen_chars (l : List Char) (n : Nat) (h : entityLen l = some n) :
    ∀ x ∈ l.take n, notAngle x = true := by
  match l, h with
  | [], h => simp [entityLen] at h
  | c :: rest, h =>
    simp only [entityLen] at h
    split at h
    · next hamp =>
      rcases Option.map_eq_some'.mp h with ⟨bn, hbn, hbneq⟩
      subst hbneq
      intro x hx
      rw [List.take_succ_cons] at hx
      rcases List.mem_cons.mp hx with rfl | hmem
      · rw [hamp]; decide
      · exact entityBodyLen_chars rest bn hbn x hmem
    · simp at h

/-- Every string stored by the entity pass is a matched entity, hence free of
angle brackets (given the same for the initial accumulator). -/
theorem entityPass_stored (pre : String) :
    ∀ (f : Nat) (l : List Char) (acc : List (List Char)) (res : List Char)
      (acc' : List (List Char)),
      entityPass pre f l acc = some (res, acc') →
      (∀ e ∈ acc, ∀ x ∈ e, notAngle x = true) →
      ∀ e ∈ acc', ∀ x ∈ e, notAngle x = true := by
  intro f
  induction f with
  | zero => intro l acc res acc' h hacc; simp [entityPass] at h
  | succ g ih =>
    intro l acc res acc' h hacc
    cases l with
    | nil =>
      simp [entityPass] at h
      obtain ⟨h1, h2⟩ := h
      subst h2
      exact hacc
    | cons c rest =>
      simp only [entityPass] at h
      cases he : entityLen (c :: rest) with
      | some n =>
        simp only [he] at h
        cases hrec : entityPass pre g ((c :: rest).drop n) (acc ++ [(c :: rest).take n]) with
        | none => simp only [hrec] at h; exact absurd h (by simp)
        | some p =>
          rcases p with ⟨tail, acc₁⟩
          simp only [hrec] at h
          simp at h
          obtain ⟨h1, h2⟩ := h
          subst h2
          refine ih ((c :: rest).drop n) (acc ++ [(c :: rest).take n]) tail acc₁ hrec ?_
          intro e hmem x hx
          rcases List.mem_append.mp hmem with hin | hone
          · exact hacc e hin x hx
          · simp at hone
            subst hone
            exact entityLen_chars (c :: rest) n he x hx
      | none =>
        simp only [he] at h
        cases hrec : entityPass pre g rest acc with
        | none => simp only [hrec] at h; exact absurd h (by simp)
        | some p =>
          rcases p with ⟨tail, acc₁⟩
          simp only [hrec] at h
          simp at h
          obtain ⟨h1, h2⟩ := h
          subst h2
          exact ih rest acc tail acc₁ hrec hacc

/-- The structure of a processed code block: lowercase tags around the
original attributes and an inner text free of angle brackets. -/
theorem processCodeInner_shape (attrs inner out : List Char)
    (h : processCodeInner attrs inner = some out) :
    ∃ esc, out = ("<code".toList) ++ attrs ++ ('>' :: esc) ++ ("</code>".toList) ∧
      ∀ x ∈ esc, notAngle x = true := by
  simp only [processCodeInner] at h
  cases h1 : entityPass ("ENTC") (inner.length + 1) inner [] with
  | none => rw [h1] at h; exact absurd h (by simp)
  | some p =>
    rcases p with ⟨ip, locals⟩
    rw [h1] at h
    cases h2 : restoreLoop ("ENTC") 0 locals (escAll ip) with
    | none => simp [h2] at h
    | some r =>
      simp [h2] at h
      refine ⟨r, ?_, ?_⟩
      · rw [← h]
        simp
      intro x hx
      rcases mem_restoreLoop ("ENTC") locals 0 (escAll ip) r h2 x hx with hxe | ⟨e, he, hxe⟩
      · exact escAll_no_angle ip x hxe
      · exact entityPass_stored ("ENTC") (inner.length + 1) inner [] ip locals h1
          (by simp) e he x hxe

/-! ## Identity behaviour of the passes on inputs without matches -/

/-- Every list is a prefix of itself. -/
theorem startsWithL_refl : ∀ l : List Char, startsWithL l l = true := by
  intro l
  induction l with
  | nil => rfl
  | cons c rest ih => simp [startsWithL, ih]

/-- Replacing a pattern inside exactly that pattern yields the replacement. -/
theorem replaceStr_self (f : Nat) (pat rep : List Char) (hp : pat ≠ [])
    (hf : pat.length + 1 ≤ f) : replaceStr f pat rep pat = some rep := by
  cases f with
  | zero =>
    have : 0 < pat.length := List.length_pos.mpr hp
    omega
  | succ g =>
    cases pat with
    | nil => simp at hp
    | cons p ps =>
      simp only [replaceStr]
      rw [if_pos (startsWithL_refl (p :: ps))]
      rw [List.drop_length]
      cases g with
      | zero =>
        have hlc : (p :: ps).length = ps.length + 1 := List.length_cons p ps
        omega
      | succ g2 => simp [replaceStr]

/-- Without a `<` there is no code-block match. -/
theorem codeLen_none_of_no_lt (l : List Char) (h : ∀ x ∈ l, x ≠ '<') :
    codeLen l = none := by
  match l with
  | [] => rfl
  | [_] => rfl
  | [_, _] => rfl
  | [_, _, _] => rfl
  | [_, _, _, _] => rfl
  | a :: c1 :: c2 :: c3 :: c4 :: rest =>
    have ha : a ≠ '<' := h a (by simp)
    simp [codeLen, ha]

/-- Without a `<` there is no tag match. -/
theorem tagLen_none_of_no_lt (l : List Char) (h : ∀ x ∈ l, x ≠ '<') :
    tagLen l = none := by
  match l with
  | [] => rfl
  | [_] => rfl
  | a :: c :: rest =>
    have ha : a ≠ '<' := h a (by simp)
    simp [tagLen, ha]

/-- The code pass is the identity on text without `<`. -/
theorem codePass_id_of_no_lt :
    ∀ (f : Nat) (l : List Char) (acc : List (List Char)), (∀ x ∈ l, x ≠ '<') →
      l.length < f → codePass f l acc = some (l, acc) := by
  intro f
  induction f with
  | zero => intro l acc h hl; omega
  | succ g ih =>
    intro l acc h hl
    cases l with
    | nil => simp [codePass]
    | cons c rest =>
      have hlen : (c :: rest).length = rest.length + 1 := List.length_cons c rest
      have hrec := ih rest acc (fun x hx => h x (List.mem_cons_of_mem c hx)) (by omega)
      simp only [codePass]
      rw [codeLen_none_of_no_lt (c :: rest) h]
      simp [hrec]

/-- The tag pass is the identity on text without `<`. -/
theorem tagPass_id_of_no_lt (hasClose : Bool) :
    ∀ (f : Nat) (l : List Char) (acc : List (List Char)), (∀ x ∈ l, x ≠ '<') →
      l.length < f → tagPass hasClose f l acc = some (l, acc) := by
  intro f
  induction f with
  | zero => intro l acc h hl; omega
  | succ g ih =>
    intro l acc h hl
    cases l with
    | nil => simp [tagPass]
    | cons c rest =>
      have hlen : (c :: rest).length = rest.length + 1 := List.length_cons c rest
      have hrec := ih rest acc (fun x hx => h x (List.mem_cons_of_mem c hx)) (by omega)
      simp only [tagPass]
      rw [tagLen_none_of_no_lt (c :: rest) h]
      simp [hrec]

/-- `takeWhile` runs through a prefix on which the predicate holds. -/
theorem takeWhile_all_append (p : Char → Bool) :
    ∀ (l1 l2 : List Char), (∀ x ∈ l1, p x = true) →
      (l1 ++ l2).takeWhile p = l1 ++ l2.takeWhile p := by
  intro l1
  induction l1 with
  | nil => intro l2 h; simp
  | cons c r ih =>
    intro l2 h
    have hc : p c = true := h c (by simp)
    simp [List.takeWhile_cons, hc]
    exact ih l2 (fun x hx => h x (by simp [hx]))

/-- The entity scanner matches a whole named entity `&name;`. -/
theorem entityLen_exact_name (c0 : Char) (nm : List Char)
    (hc : c0.isAlpha = true) (hnm : ∀ x ∈ nm, x.isAlphanum = true) :
    entityLen ('&' :: c0 :: nm ++ [';']) = some (nm.length + 3) := by
  have hsharp : ¬(c0 = '#') := by
    intro he; subst he; exact absurd hc (by decide)
  have htw : (nm ++ [';']).takeWhile Char.isAlphanum = nm := by
    rw [takeWhile_all_append Char.isAlphanum nm ([';']) hnm]
    simp [List.takeWhile_cons, show (';').isAlphanum = false from by decide]
  have hdr : ((nm ++ [';']).drop nm.length).head? = some ';' := by
    rw [List.drop_left nm ([';'])]
    rfl
  have hdr2 : (nm ++ ([';'] : List Char))[nm.length]? = some ';' := by
    simpa using hdr
  simp [entityLen, entityBodyLen, hsharp, hc, htw, hdr2] <;> omega

/-- The entity pass on exactly one whole entity stores it and leaves the
first placeholder. -/
theorem entityPass_exact (pre : String) (l : List Char)
    (he : entityLen l = some l.length) (hne : l ≠ []) :
    entityPass pre (l.length + 1) l [] = some (ph pre 0, [l]) := by
  cases l with
  | nil => simp at hne
  | cons c rest =>
    have hlen : (c :: rest).length = rest.length + 1 := List.length_cons c rest
    rw [hlen]
    simp only [entityPass]
    rw [show rest.length + 1 = (c :: rest).length from hlen.symm, he]
    simp only [List.drop_length, List.take_length]
    rw [hlen]
    simp [entityPass]

/-- The whole sanitizer preserves a lone named entity `&name;`, for any name
made of an ASCII letter followed by alphanumerics, known or unknown. -/
theorem escapeCore_named_entity (c0 : Char) (nm : List Char)
    (hc : c0.isAlpha = true) (hnm : ∀ x ∈ nm, x.isAlphanum = true) :
    escapeCore ('&' :: c0 :: nm ++ [';']) = some ('&' :: c0 :: nm ++ [';']) := by
  have hnl : ∀ x ∈ ('&' :: c0 :: nm ++ [';']), x ≠ '<' := by
    intro x hx
    simp at hx
    rcases hx with rfl | rfl | hx | rfl
    · decide
    · intro hgo; rw [hgo] at hc; exact absurd hc (by decide)
    · intro hgo; rw [hgo] at hx; exact absurd (hnm _ hx) (by decide)
    · decide
  have he := entityLen_exact_name c0 nm hc hnm
  have hlen : ('&' :: c0 :: nm ++ [';']).length = nm.length + 3 := by
    simp [List.length_cons, List.length_append]
  have h1 : codePass (('&' :: c0 :: nm ++ [';']).length + 1) ('&' :: c0 :: nm ++ [';']) []
      = some ('&' :: c0 :: nm ++ [';'], []) :=
    codePass_id_of_no_lt _ _ [] hnl (by omega)
  have h2 : tagPass
      (containsSeq (("</code>").toList) (toLowerL ('&' :: c0 :: nm ++ [';'])))
      (('&' :: c0 :: nm ++ [';']).length + 1) ('&' :: c0 :: nm ++ [';']) []
      = some ('&' :: c0 :: nm ++ [';'], []) :=
    tagPass_id_of_no_lt _ _ _ [] hnl (by omega)
  have h3 : entityPass ("ENTG") (('&' :: c0 :: nm ++ [';']).length + 1)
      ('&' :: c0 :: nm ++ [';']) [] = some (ph ("ENTG") 0, ['&' :: c0 :: nm ++ [';']]) :=
    entityPass_exact ("ENTG") _ (by rw [he, hlen]) (by simp)
  have hesc : escAll (ph ("ENTG") 0) = ph ("ENTG") 0 := by decide
  have h4 : restoreLoop ("ENTG") 0 (['&' :: c0 :: nm ++ [';']]) (ph ("ENTG") 0)
      = some ('&' :: c0 :: nm ++ [';']) := by
    simp only [restoreLoop]
    rw [replaceStr_self ((ph ("ENTG") 0).length + 1) (ph ("ENTG") 0)
      ('&' :: c0 :: nm ++ [';']) (by simp [ph]) (by omega)]
    simp [restoreLoop]
  simp at h1 h2 h3 h4
  simp [escapeCore, h1, h2, h3, hesc, h4, restoreLoop]
  exact replaceStr_self _ _ _ (by simp [ph]) (by omega)

/-! ## Claim theorems -/

/-- Claim C1: the no-leak property of the `KeyRegistry` fails on the code.
First part: a single task for key `"u"`, run to completion on the
capacity-5 executor, leaves the registry still containing `"u"` although
every task is done and none is queued.  Second part: the cleanup step of
`Executor::run` can never remove a registry entry, because the
`Arc::strong_count(&lock_arc) == 1` test is unsatisfiable while the map and
the finishing task both hold references. -/
theorem claim_C1_registry_leak :
    (runActs (initSt 5 (["u"])) c1Trace = some c1Final ∧
      c1Final.tasks.all (fun t => isDoneB t.stage) = true ∧
      c1Final.registry = ["u"]) ∧
    ∀ (cap : Nat) (keys : List String) (acts : List ExecAction) (s₁ s₂ : ExecSt)
      (i : Nat),
      runActs (initSt cap keys) acts = some s₁ →
      applyAction s₁ (ExecAction.cleanup i) = some s₂ →
      s₂.registry = s₁.registry := by
  constructor
  · exact ⟨by decide, by decide, by decide⟩
  · intro cap keys acts s₁ s₂ i hrun hstep
    obtain ⟨_, _, harc⟩ := runActs_inv acts (initSt cap keys) s₁ hrun
    exact cleanup_keeps_registry s₁ s₂ i hstep (harc (invArc_init cap keys))

/-- Witness for C1: the concrete cleanup step of the single-task run leaves
the registry unchanged. -/
theorem claim_C1_registry_leak_witness : c1Final.registry = c1Mid.registry :=
  claim_C1_registry_leak.2 5 (["u"]) (c1Trace.take 4) c1Mid c1Final 0 (by decide)
    (by decide)

/-- Claim C2: the sanitizer safety invariant fails on the code.  On the
input `<x c="␇TAG1␇"><b a='"'>` (␇ = U+0007, the placeholder delimiter),
whose first span is a well-formed tag (the tag matcher accepts its 14
characters), the output starts with a `<` that is not part of any
well-formed tag, code block or entity: the placeholder collision rewrote the
first tag's quoted attribute. -/
theorem claim_C2_collision_unsafe :
    escapeCore c2BadInput = some c2BadOutput ∧
    tagLen c2BadInput = some 14 ∧
    c2BadOutput.head? = some '<' ∧
    tagLen c2BadOutput = none ∧
    codeLen c2BadOutput = none ∧
    entityLen c2BadOutput = none := by decide

/-- Claim C3: a `<code>`-looking tag with no closing `</code>` anywhere is
not treated as a tag: the tag pass returns any tag whose lowercase form
starts with `<code` as literal text when the document has no close marker,
and `sanitize "<code>1 < 2"` escapes everything. -/
theorem claim_C3_unclosed_code :
    escape_telegram_code_entities ("<code>1 < 2") = "&lt;code&gt;1 &lt; 2" ∧
    ∀ tag : List Char, startsWithL (("<code").toList) (toLowerL tag) = true →
      tagKeptAsText false tag = true := by
  constructor
  · decide
  · intro tag h
    rcases hu : toLowerL tag with _ | ⟨a, u1⟩
    · rw [hu] at h; simp [startsWithL] at h
    · rcases u1 with _ | ⟨b, u2⟩
      · rw [hu] at h; simp [startsWithL] at h
      · rw [hu] at h
        simp [startsWithL] at h
        obtain ⟨ha, hb, hrest⟩ := h
        subst ha
        subst hb
        simp [tagKeptAsText, hu, startsWithL, hrest]

/-- Witness for C3 at the tag `<code>`. -/
theorem claim_C3_unclosed_code_witness :
    tagKeptAsText false (("<code>").toList) = true :=
  claim_C3_unclosed_code.2 (("<code>").toList) (by decide)

/-- Claim C4 counterexample: the opening and closing tags of a matched code
block are not kept intact — the tag name is rebuilt in lowercase, so
`<CODE>1<2</CODE>` comes back as `<code>1&lt;2</code>`, not as
`<CODE>1&lt;2</CODE>`. -/
theorem claim_C4_counterexample :
    escape_telegram_code_entities ("<CODE>1<2</CODE>") = "<code>1&lt;2</code>" ∧
    escape_telegram_code_entities ("<CODE>1<2</CODE>") ≠ "<CODE>1&lt;2</CODE>" := by
  exact ⟨by decide, by decide⟩

/-- Claim C4 (amended): for a matched code block the sanitizer escapes the
inner content — the processed inner text contains no `<` or `>` — and
rebuilds the block as `<code` + original attributes + `>` + inner +
`</code>` with a lowercase tag name; in particular the spec's example and an
ampersand example hold. -/
theorem claim_C4_code_block_escape :
    escape_telegram_code_entities ("<code>let x: Option<i32></code>") =
      "<code>let x: Option&lt;i32&gt;</code>" ∧
    escape_telegram_code_entities ("<code>a & b</code>") = "<code>a &amp; b</code>" ∧
    ∀ (attrs inner out : List Char), processCodeInner attrs inner = some out →
      ∃ esc, out = ("<code".toList) ++ attrs ++ ('>' :: esc) ++ ("</code>".toList) ∧
        ∀ x ∈ esc, notAngle x = true := by
  exact ⟨by decide, by decide, processCodeInner_shape⟩

/-- Witness for C4 at the code block `<code>x<y</code>`. -/
theorem claim_C4_code_block_escape_witness :
    ∃ esc, (("<code>x&lt;y</code>").toList) =
      ("<code".toList) ++ ([] : List Char) ++ ('>' :: esc) ++ ("</code>".toList) ∧
      ∀ x ∈ esc, notAngle x = true :=
  claim_C4_code_block_escape.2.2 [] (("x<y").toList) (("<code>x&lt;y</code>").toList)
    (by decide)

/-- Claim C5: recognized entity patterns pass through unchanged and a bare
`&` is escaped: the spec's example holds, and any single named entity
`&name;` — an ASCII letter followed by alphanumerics, known or unknown —
is preserved verbatim by the whole sanitizer. -/
theorem claim_C5_entity_preservation :
    escape_telegram_code_entities ("&amp; &unknown; &#65; &#x41; &") =
      "&amp; &unknown; &#65; &#x41; &amp;" ∧
    ∀ (c0 : Char) (nm : List Char), c0.isAlpha = true →
      (∀ x ∈ nm, x.isAlphanum = true) →
      escape_telegram_code_entities (String.mk ('&' :: c0 :: nm ++ [';'])) =
        String.mk ('&' :: c0 :: nm ++ [';']) := by
  constructor
  · decide
  · intro c0 nm hc hnm
    have h := escapeCore_named_entity c0 nm hc hnm
    have htl : (String.mk ('&' :: c0 :: nm ++ [';'])).toList = '&' :: c0 :: nm ++ [';'] :=
      rfl
    unfold escape_telegram_code_entities
    rw [htl, h]

/-- Witness for C5 at the unknown entity `&z9;`. -/
theorem claim_C5_entity_preservation_witness :
    escape_telegram_code_entities (String.mk ('&' :: 'z' :: ['9'] ++ [';'])) =
      String.mk ('&' :: 'z' :: ['9'] ++ [';']) :=
  claim_C5_entity_preservation.2 'z' (['9']) (by decide) (by decide)

/-- Claim C6: a tag-like span missing its terminating `>` is never matched —
every matched tag ends with `>` (quotes honored by the scanner) — and the
truncated-tag example is escaped as literal text. -/
theorem claim_C6_truncated_tag :
    escape_telegram_code_entities ("<div attr=\"x") = "&lt;div attr=\"x" ∧
    ∀ (l : List Char) (n : Nat), tagLen l = some n → l.get? (n - 1) = some '>' :=
  ⟨by decide, tagLen_ends_gt⟩

/-- Witness for C6 at the tag `<b>`. -/
theorem claim_C6_truncated_tag_witness :
    (("<b>").toList).get? (3 - 1) = some '>' :=
  claim_C6_truncated_tag.2 (("<b>").toList) 3 (by decide)

/-- Claim C7: the sanitizer is total — the pipeline (with every internal
loop's fuel accounted) always returns a result, for every input string. -/
theorem claim_C7_sanitize_total (s : String) :
    sanitizeOpt s = some (escape_telegram_code_entities s) := by
  have h := escapeCore_isSome s.toList
  rcases Option.isSome_iff_exists.mp h with ⟨l, hl⟩
  unfold sanitizeOpt escape_telegram_code_entities
  rw [hl]
  rfl

/-- Witness for C7 at a small input. -/
theorem claim_C7_sanitize_total_witness :
    sanitizeOpt ("a<b") = some (escape_telegram_code_entities ("a<b")) :=
  claim_C7_sanitize_total ("a<b")

/-- Claim C8: `shutdown` is idempotent: after one call both the stop sender
and the join handle are `None`, and any later call performs no stop-send and
no join and leaves the state unchanged. -/
theorem claim_C8_shutdown_idempotent (s : ChatActionKeepAlive) :
    ((s.shutdown).1.stop_tx = none ∧ (s.shutdown).1.handle = none) ∧
    (s.shutdown).1.shutdown = ((s.shutdown).1, []) :=
  ⟨⟨rfl, rfl⟩, rfl⟩

/-- Witness for C8 on a freshly spawned handle. -/
theorem claim_C8_shutdown_idempotent_witness :
    ((ChatActionKeepAlive.spawn.shutdown).1.stop_tx = none ∧
      (ChatActionKeepAlive.spawn.shutdown).1.handle = none) ∧
    (ChatActionKeepAlive.spawn.shutdown).1.shutdown =
      ((ChatActionKeepAlive.spawn.shutdown).1, []) :=
  claim_C8_shutdown_idempotent ChatActionKeepAlive.spawn

/-- Claim C9: the number of tasks simultaneously inside `task()` never
exceeds the configured capacity, for every schedule from every initial task
set; the module-level executor uses capacity five. -/
theorem claim_C9_capacity_bound :
    executorCapacity = 5 ∧
    ∀ (cap : Nat) (keys : List String) (acts : List ExecAction) (s' : ExecSt),
      runActs (initSt cap keys) acts = some s' →
      s'.tasks.countP (fun t => isRunningB t.stage) ≤ cap := by
  refine ⟨rfl, ?_⟩
  intro cap keys acts s' h
  obtain ⟨hcap, hperm, _⟩ := runActs_inv acts (initSt cap keys) s' h
  have hp := hperm (invPermit_init cap keys)
  have hmono : s'.tasks.countP (fun t => isRunningB t.stage) ≤
      s'.tasks.countP (fun t => holdsPermitB t.stage) :=
    List.countP_mono_left (fun t _ hr => isRunningB_holdsPermitB t.stage hr)
  simp only [InvPermit] at hp
  have hc2 : s'.cap = cap := by simpa [initSt] using hcap
  omega

/-- Witness for C9: a reachable state with one running task on the
capacity-5 executor. -/
theorem claim_C9_capacity_bound_witness :
    c9Final.tasks.countP (fun t => isRunningB t.stage) ≤ 5 :=
  claim_C9_capacity_bound.2 5 (["a", "b"]) c9Trace c9Final (by decide)

/-- Claim C10 counterexample: `<codex>` is a well-formed tag span (the tag
matcher accepts its seven characters) whose name begins with an ASCII
letter and which lies outside any code block, yet it is not preserved: the
whole input is escaped because the span's lowercase form starts with
`<code` and no closing `</code>` exists. -/
theorem claim_C10_counterexample :
    tagLen (("<codex>hi</codex>").toList) = some 7 ∧
    escape_telegram_code_entities ("<codex>hi</codex>") =
      "&lt;codex&gt;hi&lt;/codex&gt;" ∧
    containsSeq (("<codex>").toList) (("&lt;codex&gt;hi&lt;/codex&gt;").toList) =
      false := by decide

/-- Claim C10 (amended): the tag pass applies no whitelist — an arbitrary
well-formed tag such as `<script src="x">` is preserved verbatim, matching
is ASCII case-insensitive — except that a matched span whose lowercase form
starts with `<code` or `</code` is left as literal text and escaped when the
text after code extraction contains no `</code>`. -/
theorem claim_C10_no_whitelist :
    escape_telegram_code_entities ("<script src=\"x\">hi</script>") =
      "<script src=\"x\">hi</script>" ∧
    escape_telegram_code_entities ("<I>a</I>") = "<I>a</I>" ∧
    escape_telegram_code_entities ("<CODE>x & y</CODE>") = "<code>x &amp; y</code>" ∧
    escape_telegram_code_entities ("<coden>z</coden>") =
      "&lt;coden&gt;z&lt;/coden&gt;" := by decide
